import Mathlib

/-!
Verification of the silabeador-ts Spanish syllabification library
(src/silabeador.ts, src/types.ts, src/index.ts).

Words are embedded as `List Char` (JavaScript strings of BMP code points,
one `Char` per UTF-16 code unit; every character the program manipulates is
in the BMP).  Each private method of the `Syllabification` class is embedded
as a function below, translated line by line from the TypeScript source.

The external exception table (`EXCEPTIONS_LIST` from exceptions-data.js) is
not part of the sources under verification; the spec declares it an external
collaborator owned by the surrounding application.  The pass that applies it
is therefore represented by an arbitrary substitution function `subst`,
universally quantified in the theorems.
-/

namespace Silabeador

/-- Characters of a string literal, as a list. -/
def st (s : String) : List Char := s.data

/-- JS `set.includes(c)` where `c` may be `undefined` (modelled as `none`):
`includes(undefined)` coerces the argument to the string "undefined", which
is never contained in the one-character sets used by the program, so the
`none` case is `false`. -/
def jsInc (s : List Char) (c? : Option Char) : Bool :=
  match c? with
  | none => false
  | some c => s.contains c

/-- JS `s.at(-k)` (`k ≥ 1`) on a string: the k-th character from the end, or
`none` (JS `undefined`) when the string is shorter than `k`.  `at(-0)` is
JS `at(0)`, the first character. -/
def atNeg (s : List Char) (k : Nat) : Option Char :=
  if k = 0 then s[0]? else s.reverse[k - 1]?

/-- JS `s.slice(-n)` on a string: the last `n` characters (the whole string
when it is shorter than `n`). -/
def lastN (n : Nat) (l : List Char) : List Char := l.drop (l.length - n)

/-- JS `s.slice(0, -n)` on a string: everything but the last `n` characters
(empty when the string is shorter than `n`). -/
def dropLastN (n : Nat) (l : List Char) : List Char := l.take (l.length - n)

/-- JS `a[a.length - 1] += ...` on a nonempty array of strings: rewrite the
last element.  (On an empty array the JS statement writes a stray `-1`
property and leaves the array empty; the code only reaches such statements
behind nonemptiness guards, and this model returns `[]` there.) -/
def updateLast (f : List Char → List Char) : List (List Char) → List (List Char)
  | [] => []
  | [x] => [f x]
  | x :: xs => x :: updateLast f xs

/-- JS `String.prototype.replace` with a plain-string pattern: replace the
first (leftmost) occurrence of `pat` by `rep`; identity when there is no
occurrence. -/
def replaceFirst (pat rep : List Char) : List Char → List Char
  | [] => []
  | c :: rest =>
    if pat.isPrefixOf (c :: rest) then rep ++ (c :: rest).drop pat.length
    else c :: replaceFirst pat rep rest

/-- The accented letters of the source (`áéíóúäëïöüàèìòù`, both cases, plus
tildes, the Latin ligatures æ/œ, ñ, ç and the ﬁ/ﬂ ligatures and the IPA
letters appearing in the cluster tables): the non-ASCII part of the Unicode
letter class `\p{L}` restricted to the alphabet this program manipulates. -/
def extraLetters : List Char :=
  st ("áéíóúäëïöüàèìòùÁÉÍÓÚÄËÏÖÜÀÈÌÒÙãẽĩõũÃẼĨÕŨæœÆŒñÑçÇﬁﬂβɣɾðʃθχɱɲ")

/-- The character class kept by `syllabify`'s normalization step, which the
source writes as the regex `[^\p{L}\p{N}_]` (deleted characters are its
complement): Unicode letters, digits, and the sentinel underscore, modelled
over the program's alphabet. -/
def isKept (c : Char) : Bool :=
  c.isAlpha || c.isDigit || c = '_' || extraLetters.contains c

/-- The `foreignLig` object literal of `syllabify`. -/
def foreignLigTable : List (Char × List Char) :=
  [('à', st ("a")), ('è', st ("e")), ('ì', st ("i")), ('ò', st ("o")), ('ù', st ("u")),
   ('ã', st ("a")), ('ẽ', st ("e")), ('ĩ', st ("i")), ('õ', st ("o")), ('ũ', st ("u")),
   ('ﬁ', st ("fi")), ('ﬂ', st ("fl"))]

/-- JS `foreignLig[letter] ?? letter`: grave- and tilde-accented vowels are
mapped to the plain vowel, and the ﬁ/ﬂ ligatures are expanded. -/
def foreignLig (c : Char) : List Char :=
  match foreignLigTable.lookup c with
  | some r => r
  | none => [c]

/-- The normalization performed at the top of `syllabify` on a string input:
drop every character outside letters/digits/underscore, then apply the
`foreignLig` mapping characterwise. -/
def normalize (w : List Char) : List Char :=
  (w.filter isKept).flatMap foreignLig

/-- Lowercase mapping for the non-ASCII letters of the program's alphabet. -/
def lowerTable : List (Char × Char) :=
  [('Á', 'á'), ('É', 'é'), ('Í', 'í'), ('Ó', 'ó'), ('Ú', 'ú'),
   ('Ä', 'ä'), ('Ë', 'ë'), ('Ï', 'ï'), ('Ö', 'ö'), ('Ü', 'ü'),
   ('À', 'à'), ('È', 'è'), ('Ì', 'ì'), ('Ò', 'ò'), ('Ù', 'ù'),
   ('Ã', 'ã'), ('Ẽ', 'ẽ'), ('Ĩ', 'ĩ'), ('Õ', 'õ'), ('Ũ', 'ũ'),
   ('Ñ', 'ñ'), ('Ç', 'ç'), ('Æ', 'æ'), ('Œ', 'œ')]

/-- JS `String.prototype.toLowerCase`, restricted to the program's alphabet:
ASCII letters plus the accented uppercase vowels and Ñ/Ç/Æ/Œ. -/
def jsToLower (c : Char) : Char :=
  match lowerTable.lookup c with
  | some r => r
  | none => c.toLower

/-- The constructor's `this.vowels` string (the literal from line 48 of the
source, including its `Ó`-for-`Ö` quirk in the uppercase dieresis block),
extended with `jw` when `ipa` is set. -/
def vowels (ipa : Bool) : List Char :=
  st ("aeiouáéíóúäëïöüàèìòùAEIOUÁÉÍÓÚÄËÏÓÜÀÈÌÒÙ") ++ (if ipa then st ("jw") else [])

/-- The constructor's `this.close` string, extended with `jw` when `ipa`. -/
def closeSet (ipa : Bool) : List Char :=
  st ("iuIU") ++ (if ipa then st ("jw") else [])

/-- JS whitespace recognized by `String.prototype.trim` (the characters that
could matter here; the program's syllables never contain any of them). -/
def isJsWs (c : Char) : Bool :=
  c = ' ' || c = '\t' || c = '\n' || c = '\r' || c = Char.ofNat 11 || c = Char.ofNat 12

/-- JS `s.trim()`. -/
def trimF (s : List Char) : List Char :=
  ((s.dropWhile isJsWs).reverse.dropWhile isJsWs).reverse

/-- Consume the `h*` of the diphthong regex: `h` is in none of the vowel
classes that follow it, so the greedy run is forced. -/
def dropHs (l : List Char) : List Char := l.dropWhile (fun c => c = 'h')

/-- Whole-string match of `h*[set]` (used for the optional trailing groups of
the diphthong regex, which are followed by `$`). -/
def hThenOne (set : List Char) (l : List Char) : Bool :=
  match dropHs l with
  | [c] => set.contains c
  | _ => false

/-- The group `(?:[eé](?:h*[close])?|i(?:h*[aeoáéó])?|í)` following `[qg][wuü]`
in the diphthong regex, matched against the whole remaining string. -/
def altABody (ipa : Bool) (l : List Char) : Bool :=
  match l with
  | [] => false
  | c :: rest =>
    ((c = 'e' || c = 'é') && (decide (rest = []) || hThenOne (closeSet ipa) rest)) ||
    (c = 'i' && (decide (rest = []) || hThenOne (st ("aeoáéó")) rest)) ||
    (c = 'í' && decide (rest = []))

/-- First alternative of the diphthong regex: `[qg][wuü](...)`. -/
def altA (ipa : Bool) (l : List Char) : Bool :=
  match l with
  | c1 :: c2 :: rest =>
    (st ("qg")).contains c1 && (st ("wuü")).contains c2 && altABody ipa rest
  | _ => false

/-- Second alternative: `[close](?:h*[aáoóeéi])(?:h*[close])?`. -/
def altB (ipa : Bool) (l : List Char) : Bool :=
  match l with
  | [] => false
  | c :: rest =>
    (closeSet ipa).contains c &&
      (match dropHs rest with
       | v :: rest2 =>
         (st ("aáoóeéi")).contains v &&
           (decide (rest2 = []) || hThenOne (closeSet ipa) rest2)
       | [] => false)

/-- Third alternative: `[aáoóeéií](?:h*[close])`. -/
def altC (ipa : Bool) (l : List Char) : Bool :=
  match l with
  | [] => false
  | c :: rest => (st ("aáoóeéií")).contains c && hThenOne (closeSet ipa) rest

/-- Membership in the language of the end-anchored diphthong regex of
`split` (line 245 of the source): a string matches at start position `i`
exactly when the suffix from `i` is in this language. -/
def inL (ipa : Bool) (l : List Char) : Bool :=
  altA ipa l || altB ipa l || altC ipa l

/-- JS `word.match(diphthongPattern)` with the `$`-anchored pattern: the
regex engine tries start positions left to right, so the match is the
longest suffix of the word in the pattern's language. -/
def findDiphSuffix (ipa : Bool) : List Char → Option (List Char)
  | [] => none
  | c :: rest =>
    if inL ipa (c :: rest) then some (c :: rest) else findDiphSuffix ipa rest

/-- Characters that survive `match[0].replace(/[gq]/g, '')`. -/
def gqFree (c : Char) : Bool := !(c = 'g' || c = 'q')

/-- The digraphs of `split`. -/
def digraphs : List (List Char) := [st ("ll"), st ("ch"), st ("rr")]

/-- Recursive worker of `Syllabification.split`, with explicit fuel (the
source recursion consumes at least one character of `word` per call, so fuel
`word.length` is enough; see `splitGo_flatten`). -/
def splitGo (ipa : Bool) : Nat → List Char → List (List Char) → List (List Char)
  | 0, _, acc => acc
  | fuel + 1, w, acc =>
    match findDiphSuffix ipa w with
    | some s =>
      let d := s.filter gqFree
      splitGo ipa fuel (w.take (w.length - d.length)) (d :: acc)
    | none =>
      if digraphs.contains (lastN 2 w) then
        splitGo ipa fuel (dropLastN 2 w) (lastN 2 w :: acc)
      else
        match w with
        | [] => acc
        | _ => splitGo ipa fuel (dropLastN 1 w) (lastN 1 w :: acc)

/-- `Syllabification.split`: scan the word right to left, emitting diphthong
nuclei, the digraphs ll/ch/rr, and otherwise single characters. -/
def split (ipa : Bool) (w : List Char) : List (List Char) :=
  splitGo ipa w.length w []

/-- The runtime configuration of the `Syllabification` constructor.  The
`exceptions` level is an `Int` because at runtime any number can flow in
(the `ExceptionLevel = 0 | 1 | 2` union type of types.ts exists only at
TypeScript compile time). -/
structure Config where
  exceptions : Int
  ipa : Bool
  h : Bool
  epen : Bool
  tl : Bool

/-- The `indivisibleOnset` list of `join`, with `tl` appended when the `tl`
option is set. -/
def indivisibleOnset (tl : Bool) : List (List Char) :=
  [st ("pl"), st ("bl"), st ("fl"), st ("cl"), st ("kl"), st ("gl"), st ("ll"),
   st ("pr"), st ("br"), st ("fr"), st ("cr"), st ("kr"), st ("gr"), st ("rr"),
   st ("dr"), st ("tr"), st ("ch"), st ("dh"), st ("rh"), st ("th"),
   st ("βl"), st ("ɣl"),
   st ("βɾ"), st ("pɾ"), st ("fɾ"), st ("kɾ"), st ("gɾ"), st ("ɣɾ"), st ("dɾ"), st ("ðɾ"),
   st ("tɾ"), st ("bɾ"), st ("tʃ"), st ("gw"), st ("ɣw")] ++
  (if tl then [st ("tl")] else [])

/-- The `indivisibleCoda` list of `join` (duplicates preserved). -/
def indivisibleCoda : List (List Char) :=
  [st ("ns"), st ("bs"), st ("nz"), st ("βs"), st ("bz"), st ("βz"), st ("nd"), st ("rt"),
   st ("st"), st ("ff"), st ("ls"), st ("lz"), st ("zz"), st ("ll"), st ("nt"), st ("rs"), st ("ɾs"),
   st ("ch"), st ("nk"), st ("nc"), st ("lk"), st ("sh"), st ("nt"), st ("sch"), st ("mp"), st ("rd")]

/-- The four sonority-pair conditions of `join` on the last two characters
of the pending onset (JS `onset.at(-1)` / `onset.at(-2)`). -/
def sonorityCase (onset : List Char) : Bool :=
  (jsInc (st ("dðfkt")) (atNeg onset 1) &&
     jsInc (st ("bβcθkdðfgɣkmɱɲñpqstvwxχzjw")) (atNeg onset 2)) ||
  (jsInc (st ("gɣ")) (atNeg onset 1) && jsInc (st ("cθtkjw")) (atNeg onset 2)) ||
  (jsInc (st ("lmɱ")) (atNeg onset 1) && jsInc (st ("mɱl")) (atNeg onset 2)) ||
  (jsInc (st ("cθ")) (atNeg onset 1) && jsInc (st ("kc")) (atNeg onset 2))

/-- The test `Array.from(letter).every(x => !this.vowels.includes(x.toLowerCase()))`
of `join`: the segment is a pure consonant run. -/
def allConsonant (ipa : Bool) (seg : List Char) : Bool :=
  seg.all (fun c => !((vowels ipa).contains (jsToLower c)))

/-- State of `join`'s loop: `word` (the syllables emitted so far), the
`onset` accumulator, and the `media` split hint. -/
structure JoinSt where
  word : List (List Char)
  onset : List Char
  media : Nat

/-- One iteration of the `for (const letter of syllables)` loop of `join`. -/
def stepJoin (cfg : Config) (s : JoinSt) (seg : List Char) : JoinSt :=
  if seg = ['_'] then
    if s.word = [] then s
    else ⟨updateLast (fun x => x ++ s.onset) s.word, [], s.media⟩
  else if allConsonant cfg.ipa seg then
    if lastN 1 s.onset = ['y'] then
      if s.onset = ['y'] && !s.word.isEmpty &&
          jsInc (st ("AOEÁÓÉaoeáóé")) (atNeg (s.word.getLast?.getD []) 1) then
        ⟨updateLast (fun x => x ++ s.onset) s.word, seg, s.media⟩
      else
        ⟨s.word ++ [s.onset], seg, s.media⟩
    else
      let onset2 := s.onset ++ seg
      let m1 := if s.word = [] then s.media else onset2.length / 2
      let m2 := if cfg.h && lastN 1 onset2 = ['h'] then 0 else m1
      ⟨s.word, onset2, m2⟩
  else if s.onset.length ≤ 1 || s.word.isEmpty then
    ⟨s.word ++ [s.onset ++ seg], [], s.media⟩
  else if (indivisibleOnset cfg.tl).any (fun x => x.isSuffixOf s.onset) then
    if s.word = [] then
      ⟨s.word ++ [s.onset ++ seg], [], s.media⟩
    else
      ⟨updateLast (fun x => x ++ dropLastN 2 s.onset) s.word ++ [lastN 2 s.onset ++ seg],
       [], s.media⟩
  else if indivisibleCoda.any (fun x => x.isPrefixOf s.onset) && decide (2 < s.onset.length) then
    ⟨updateLast (fun x => x ++ s.onset.take 2) s.word ++ [s.onset.drop 2 ++ seg], [], s.media⟩
  else if sonorityCase s.onset then
    ⟨updateLast (fun x => x ++ dropLastN 1 s.onset) s.word ++ [lastN 1 s.onset ++ seg],
     [], s.media⟩
  else
    ⟨updateLast (fun x => x ++ s.onset.take s.media) s.word ++ [s.onset.drop s.media ++ seg],
     [], s.media⟩

/-- The `if (onset)` epilogue of `join`. -/
def finishJoin (s : JoinSt) : List (List Char) :=
  if s.onset = [] then s.word
  else if s.word.length < 1 then s.word ++ [s.onset]
  else if lastN 1 s.onset = ['y'] && decide (s.onset.length = 1) then
    updateLast (fun x => x ++ s.onset) s.word
  else if lastN 1 s.onset = ['y'] then
    updateLast (fun x => x ++ dropLastN 2 s.onset) s.word ++ [lastN 2 s.onset]
  else updateLast (fun x => x ++ s.onset) s.word

/-- `Syllabification.join`. -/
def join (cfg : Config) (segs : List (List Char)) : List (List Char) :=
  finishJoin (segs.foldl (stepJoin cfg) ⟨[], [], 0⟩)

/-- `Syllabification.syllabify` on a string input: strip non-word
characters, apply `foreignLig`, split, join, and trim each syllable. -/
def syllabifyStr (cfg : Config) (w : List Char) : List (List Char) :=
  (join cfg (split cfg.ipa (normalize w))).map trimF

/-- `Syllabification.syllabify` on its `string | string[]` argument: an
array (produced by the Latin pass) is returned unchanged. -/
def syllabifyAny (cfg : Config) : List Char ⊕ List (List Char) → List (List Char)
  | Sum.inl s => syllabifyStr cfg s
  | Sum.inr a => a

/-- Orthographic accent marks recognized by `stressedSyllable`. -/
def hasAccent (c : Char) : Bool := (st ("áéíóúÁÉÍÓÚ")).contains c

/-- The `for (let i = 0; ...)` loop of `stressedSyllable`: the index of the
first syllable containing an accent mark. -/
def findAccentIdx : List (List Char) → Option Nat
  | [] => none
  | s :: rest =>
    if s.any hasAccent then some 0 else (findAccentIdx rest).map (· + 1)

/-- `Syllabification.stressedSyllable`: the cascade returning a negative
stress index. -/
def stressedSyllable (sylls : List (List Char)) : Int :=
  if sylls.length = 0 then -1
  else if sylls.length = 1 then -1
  else if sylls.flatten.any hasAccent then
    match findAccentIdx sylls with
    | some i => (i : Int) - sylls.length
    | none => -1
  else
    let last := sylls.getLast?.getD []
    if jsInc (st ("yY")) (atNeg last 1) && jsInc (st ("aeiouAEIOU")) (atNeg last 2) then -1
    else if jsInc (st ("aeiouAEIOUy")) (atNeg last 1) then -2
    else if jsInc (st ("nsNS")) (atNeg last 1) && jsInc (st ("aeiouAEIOU")) (atNeg last 2) then -2
    else -1

/-- The Latin inflection endings of `latin`, in source order. -/
def flexiones : List (List Char) :=
  [st ("um"), st ("em"), st ("at"), st ("ant"), st ("it"), st ("unt"), st ("am")]

/-- JS `\w` in a regex without the `u` flag (the `new RegExp` built in
`latin` has no flags): ASCII letters, digits, underscore. -/
def isAsciiWordChar (c : Char) : Bool :=
  ('a' ≤ c && c ≤ 'z') || ('A' ≤ c && c ≤ 'Z') || ('0' ≤ c && c ≤ '9') || c = '_'

/-- Does `f` occur at the head of `w` followed by a `\b` word boundary
(end of string or a non-word character)? -/
def matchBoundary (f w : List Char) : Bool :=
  f.isPrefixOf w &&
    (match w.drop f.length with
     | [] => true
     | c :: _ => !isAsciiWordChar c)

/-- JS `word.replace(new RegExp(flexio + "\\b"), "_" + flexio)`: insert a
sentinel before the first occurrence of `f` that is followed by a word
boundary; identity when there is none. -/
def insertSentinel (f : List Char) : List Char → List Char
  | [] => []
  | c :: rest =>
    if matchBoundary f (c :: rest) then '_' :: c :: rest
    else c :: insertSentinel f rest

/-- The `dictionarium` accent table of `latin`. -/
def accentOf (c : Char) : Char :=
  if c = 'a' then 'á' else if c = 'e' then 'é' else if c = 'i' then 'í'
  else if c = 'o' then 'ó' else if c = 'u' then 'ú' else c

/-- The accent-writing loop of `latin`: scan the table keys `a,e,i,o,u` in
order, and on the first key contained in the syllable replace its first
occurrence by the accented form. -/
def accentFirstTableVowel (syl : List Char) : List Char :=
  match (st ("aeiou")).find? (fun k => syl.contains k) with
  | some k => replaceFirst [k] [accentOf k] syl
  | none => syl

/-- The three-part "long syllable" test of `latin` on a provisional
syllable: contains a Latin ligature, or contains two or more distinct plain
vowel letters, or does not end in a plain vowel letter. -/
def longSyl (syl : List Char) : Bool :=
  syl.contains 'æ' || syl.contains 'œ' ||
  decide (1 < ((st ("aeiou")).filter (fun v => syl.contains v)).length) ||
  !((st ("aeiou")).any (fun v => lastN 1 syl = [v]))

/-- JS `syllables[i] = f(syllables[i])`. -/
def setIdx (l : List (List Char)) (i : Nat) (f : List Char → List Char) : List (List Char) :=
  l.set i (f (l.getD i []))

/-- The accent-placement block of `latin` (lines 167–199 of the source),
executed when the provisional segmentation has more than one syllable. -/
def latinAccent (sylls : List (List Char)) : List (List Char) :=
  if sylls.length = 2 || (decide (1 < sylls.length) && longSyl (sylls.getD (sylls.length - 2) [])) then
    setIdx sylls (sylls.length - 2) accentFirstTableVowel
  else if longSyl (sylls.getD (sylls.length - 3) []) then
    setIdx sylls (sylls.length - 3) accentFirstTableVowel
  else
    setIdx sylls (sylls.length - 2) (replaceFirst ['a'] ['á'])

/-- `Syllabification.latin` on a string input (in the pipeline its argument
is always a string; an array input is passed through unchanged by the
source).  Returns either the unchanged word or a finished syllable array. -/
def latin (cfg : Config) (w : List Char) : List Char ⊕ List (List Char) :=
  let lw := w.map jsToLower
  if flexiones.any (fun f => lastN f.length lw = f) &&
      !((st ("áéíóú")).any (fun a => lw.contains a)) then
    let w1 :=
      match flexiones.find? (fun f => lastN f.length lw = f) with
      | some f => insertSentinel f lw
      | none => lw
    let w2 := replaceFirst (st ("oe")) (st ("œ")) (replaceFirst (st ("ae")) (st ("æ")) w1)
    let sylls := syllabifyStr cfg w2
    if 1 < sylls.length then Sum.inr (latinAccent sylls) else Sum.inr sylls
  else Sum.inl w

/-- The `liquidae` onsets of `epenthesis`, in source order. -/
def liquidae : List (List Char) :=
  [st ("sch"), st ("sc"), st ("st"), st ("sp"), st ("sf"), st ("sb"), st ("sm"), st ("sn")]

/-- `Syllabification.epenthesis`. -/
def epenthesis (w : List Char) : List Char :=
  match liquidae.find? (fun o => o.isPrefixOf w) with
  | some o =>
    if jsInc (st ("aeiouáéíóúrl")) w[o.length]? then
      st ("es_") ++ o.drop 1 ++ w.drop o.length
    else
      ['e'] ++ o ++ ['_'] ++ w.drop o.length
  | none => w

/-- The `caparros` hiatus-prefix table of `makeExceptions`. -/
def caparros : List (List Char × List Char) :=
  [(st ("fie"), st ("fi_e")), (st ("sua"), st ("su_a")), (st ("rui"), st ("ru_i"))]

/-- `Syllabification.makeExceptions`.  The hiatus-prefix step is translated
from the source; the subsequent pass over the `EXCEPTIONS_LIST` table is the
abstract substitution `subst` (the table file is an external collaborator,
not part of the verified sources). -/
def makeExceptions (hiatus : Bool) (subst : List Char → List Char) (w : List Char) : List Char :=
  let w1 :=
    if hiatus && caparros.any (fun p => p.1.isPrefixOf w) then
      match caparros.find? (fun p => p.1 = w.take 3) with
      | some p => replaceFirst p.1 p.2 w
      | none => w
    else w
  subst w1

/-- The preprocessing phase of the constructor (lines 51–66): epenthesis if
enabled, then — only when `exceptions > 0` — the exception pass followed by
the Latin pass (with hiatus mode when `exceptions > 1`). -/
def preprocess (cfg : Config) (subst : List Char → List Char) (w : List Char) :
    List Char ⊕ List (List Char) :=
  let w1 := if cfg.epen then epenthesis w else w
  if 0 < cfg.exceptions then
    latin cfg (makeExceptions (decide (1 < cfg.exceptions)) subst w1)
  else Sum.inl w1

/-- The whole constructor: the `syllables` and `stress` fields of a
`Syllabification` instance. -/
def run (cfg : Config) (subst : List Char → List Char) (w : List Char) :
    List (List Char) × Int :=
  let sylls := syllabifyAny cfg (preprocess cfg subst w)
  (sylls, stressedSyllable sylls)

/-- The exported `syllabify` wrapper. -/
def syllabify (cfg : Config) (subst : List Char → List Char) (w : List Char) :
    List (List Char) :=
  (run cfg subst w).1

/-- The exported `tonica` wrapper. -/
def tonica (cfg : Config) (subst : List Char → List Char) (w : List Char) : Int :=
  (run cfg subst w).2

/-! Safe (exception-aware) variants.  The TypeScript source can only throw
where a method is called on a possibly-`undefined` value behind a `!`
assertion: the `syllables.at(-2)!` / `syllables.at(-3)!` reads of `latin`
and the `syllables.at(-1)!` reads of `stressedSyllable`.  The variants
below return `none` exactly where the JS code would raise a `TypeError`,
so `runSafe ... = some (run ...)` states that no input can make the
library throw. -/

/-- The accent-placement block of `latin` with every `at(-2)!`/`at(-3)!`
array read made explicit: `none` models a thrown `TypeError`. -/
def latinAccentSafe (sylls : List (List Char)) : Option (List (List Char)) := do
  let n := sylls.length
  let c1 ←
    if n = 2 then some true
    else if 1 < n then do
      let p ← sylls[n - 2]?
      some (longSyl p)
    else some false
  if c1 then do
    let p ← sylls[n - 2]?
    some (sylls.set (n - 2) (accentFirstTableVowel p))
  else do
    let a ← sylls[n - 3]?
    if longSyl a then some (sylls.set (n - 3) (accentFirstTableVowel a))
    else do
      let p ← sylls[n - 2]?
      some (sylls.set (n - 2) (replaceFirst ['a'] ['á'] p))

/-- `latin` built on the safe accent block. -/
def latinSafe (cfg : Config) (w : List Char) : Option (List Char ⊕ List (List Char)) :=
  let lw := w.map jsToLower
  if flexiones.any (fun f => lastN f.length lw = f) &&
      !((st ("áéíóú")).any (fun a => lw.contains a)) then
    let w1 :=
      match flexiones.find? (fun f => lastN f.length lw = f) with
      | some f => insertSentinel f lw
      | none => lw
    let w2 := replaceFirst (st ("oe")) (st ("œ")) (replaceFirst (st ("ae")) (st ("æ")) w1)
    let sylls := syllabifyStr cfg w2
    if 1 < sylls.length then (latinAccentSafe sylls).map Sum.inr else some (Sum.inr sylls)
  else some (Sum.inl w)

/-- `stressedSyllable` with the `syllables.at(-1)!` read made explicit. -/
def stressedSafe (sylls : List (List Char)) : Option Int :=
  if sylls.length = 0 then some (-1)
  else if sylls.length = 1 then some (-1)
  else if sylls.flatten.any hasAccent then
    match findAccentIdx sylls with
    | some i => some ((i : Int) - sylls.length)
    | none => some (-1)
  else do
    let last ← sylls.getLast?
    if jsInc (st ("yY")) (atNeg last 1) && jsInc (st ("aeiouAEIOU")) (atNeg last 2) then
      some (-1)
    else if jsInc (st ("aeiouAEIOUy")) (atNeg last 1) then some (-2)
    else if jsInc (st ("nsNS")) (atNeg last 1) && jsInc (st ("aeiouAEIOU")) (atNeg last 2) then
      some (-2)
    else some (-1)

/-- The preprocessing phase built on `latinSafe`. -/
def preprocessSafe (cfg : Config) (subst : List Char → List Char) (w : List Char) :
    Option (List Char ⊕ List (List Char)) :=
  let w1 := if cfg.epen then epenthesis w else w
  if 0 < cfg.exceptions then
    latinSafe cfg (makeExceptions (decide (1 < cfg.exceptions)) subst w1)
  else some (Sum.inl w1)

/-- The whole constructor with every potential `TypeError` made explicit. -/
def runSafe (cfg : Config) (subst : List Char → List Char) (w : List Char) :
    Option (List (List Char) × Int) := do
  let pre ← preprocessSafe cfg subst w
  let sylls := syllabifyAny cfg pre
  let s ← stressedSafe sylls
  some (sylls, s)

/-! Specification-side definitions, written from the spec's words, to be
compared with the source-derived definitions above. -/

/-- Modelled from the spec (section 4.4, rules 3–6 / claim C6): the default
stress cascade for accentless words of at least two syllables, phrased over
the last syllable read back to front. -/
def stressDefaultSpec (sylls : List (List Char)) : Int :=
  match (sylls.getLast?.getD []).reverse with
  | c1 :: c2 :: _ =>
    if (st ("yY")).contains c1 && (st ("aeiouAEIOU")).contains c2 then -1
    else if (st ("aeiouAEIOU")).contains c1 || c1 = 'y' then -2
    else if (st ("nsNS")).contains c1 && (st ("aeiouAEIOU")).contains c2 then -2
    else -1
  | [c1] =>
    if (st ("aeiouAEIOU")).contains c1 || c1 = 'y' then -2
    else -1
  | [] => -1

/-- Modelled from the spec (claim C4): write the acute accent on the first
vowel letter found scanning the fixed table a→á, e→é, i→í, o→ó, u→ú in that
order inside the given syllable. -/
def accentScanSpec (syl : List Char) : List Char :=
  if syl.contains 'a' then replaceFirst ['a'] ['á'] syl
  else if syl.contains 'e' then replaceFirst ['e'] ['é'] syl
  else if syl.contains 'i' then replaceFirst ['i'] ['í'] syl
  else if syl.contains 'o' then replaceFirst ['o'] ['ó'] syl
  else if syl.contains 'u' then replaceFirst ['u'] ['ú'] syl
  else syl

/-- The accent placement of `latin` for provisional segmentations of more
than two syllables, phrased from the end of the list (the amended claim C4):
the penultimate syllable is accented when it is "long" (ligature, two or
more distinct vowel letters, or not ending in a vowel letter); otherwise the
antepenultimate is accented when it is itself "long"; otherwise only the
letter a of the penultimate syllable is considered, its first occurrence
(if any) becoming á. -/
def latinAccentSpec (sylls : List (List Char)) : List (List Char) :=
  match sylls.reverse with
  | ultima :: paen :: ante :: pre =>
    if longSyl paen then (ultima :: accentScanSpec paen :: ante :: pre).reverse
    else if longSyl ante then (ultima :: paen :: accentScanSpec ante :: pre).reverse
    else (ultima :: replaceFirst ['a'] ['á'] paen :: ante :: pre).reverse
  | l => l.reverse

/-- The word the concatenation of the output syllables reproduces (amended
claim C1): after preprocessing, when the word is still a string it is
normalized (non-word characters stripped, `foreignLig` applied) and the
sentinel underscores are removed; when the Latin pass already produced a
syllable array, it is that array's concatenation. -/
def normalizedOf (cfg : Config) (subst : List Char → List Char) (w : List Char) : List Char :=
  match preprocess cfg subst w with
  | Sum.inl s => (normalize s).filter (fun c => !(c = '_'))
  | Sum.inr a => a.flatten

/-- The default configuration of the exported wrappers (exceptionLevel 1,
all flags off). -/
def cfg1 : Config := ⟨1, false, false, false, false⟩

/-- Configuration with exceptionLevel 0. -/
def cfg0 : Config := ⟨0, false, false, false, false⟩

/-- Configuration with exceptionLevel 2 (hiatus mode). -/
def cfg2 : Config := ⟨2, false, false, false, false⟩

/-! Generic helper lemmas. -/

theorem contains_imp {S : List Char} {P : Char → Bool} (hall : S.all P = true) :
    ∀ {c : Char}, S.contains c = true → P c = true := by
  intro c hc
  have hm : c ∈ S := by simpa using hc
  exact List.all_eq_true.mp hall c hm

theorem all_of_subset {S T : List Char} {P : Char → Bool}
    (hsub : S.all (fun c => T.contains c) = true) (hT : T.all P = true) :
    S.all P = true := by
  rw [List.all_eq_true] at hsub ⊢
  intro c hc
  exact contains_imp hT (hsub c hc)

theorem dropLastN_append_lastN (n : Nat) (l : List Char) : dropLastN n l ++ lastN n l = l :=
  List.take_append_drop _ l

theorem flatten_updateLast (s : List Char) (w : List (List Char)) (hw : w ≠ []) :
    (updateLast (fun x => x ++ s) w).flatten = w.flatten ++ s := by
  induction w with
  | nil => exact absurd rfl hw
  | cons x xs ih =>
    cases xs with
    | nil => simp [updateLast]
    | cons y ys =>
      have h2 := ih (by simp)
      simp only [updateLast, List.flatten_cons] at h2 ⊢
      rw [h2]
      simp [List.append_assoc]

theorem mem_replaceFirst {pat rep : List Char} {c : Char} :
    ∀ {s : List Char}, c ∈ replaceFirst pat rep s → c ∈ s ∨ c ∈ rep := by
  intro s
  induction s with
  | nil => intro h; simp [replaceFirst] at h
  | cons a rest ih =>
    intro h
    simp only [replaceFirst] at h
    by_cases hp : pat.isPrefixOf (a :: rest)
    · rw [if_pos hp] at h
      rcases List.mem_append.mp h with h1 | h2
      · exact Or.inr h1
      · exact Or.inl (List.mem_of_mem_drop h2)
    · rw [if_neg hp] at h
      rcases List.mem_cons.mp h with h1 | h2
      · exact Or.inl (h1 ▸ List.mem_cons_self a rest)
      · rcases ih h2 with h3 | h3
        · exact Or.inl (List.mem_cons_of_mem _ h3)
        · exact Or.inr h3

theorem findAccentIdx_lt {l : List (List Char)} {i : Nat}
    (h : findAccentIdx l = some i) : i < l.length := by
  induction l generalizing i with
  | nil => simp [findAccentIdx] at h
  | cons s rest ih =>
    simp only [findAccentIdx] at h
    by_cases hs : s.any hasAccent
    · rw [if_pos hs] at h
      cases h
      simp only [List.length_cons]
      omega
    · rw [if_neg hs] at h
      cases hfr : findAccentIdx rest with
      | none => rw [hfr] at h; simp at h
      | some j =>
        rw [hfr] at h
        simp only [Option.map_some'] at h
        cases h
        have := ih hfr
        simp only [List.length_cons]
        omega

/-! Character-class lemmas for the diphthong language. -/

theorem hThenOne_all {set : List Char} {P : Char → Bool} (hh : P 'h' = true)
    (hset : set.all P = true) :
    ∀ {l : List Char}, hThenOne set l = true → ∀ c ∈ l, P c = true := by
  intro l hl c hc
  have hsplit := List.takeWhile_append_dropWhile (p := fun c => decide (c = 'h')) (l := l)
  rw [← hsplit] at hc
  rcases List.mem_append.mp hc with h1 | h2
  · have hch := List.mem_takeWhile_imp h1
    have hc' : c = 'h' := by simpa using hch
    rw [hc']; exact hh
  · simp only [hThenOne] at hl
    cases hd : dropHs l with
    | nil => rw [hd] at hl; simp at hl
    | cons c0 rest =>
      cases rest with
      | nil =>
        rw [hd] at hl
        have h2' : c ∈ dropHs l := h2
        rw [hd] at h2'
        rcases List.mem_singleton.mp h2' with rfl
        exact contains_imp hset hl
      | cons c1 rest2 => rw [hd] at hl; simp at hl

theorem altABody_all {ipa : Bool} {P : Char → Bool}
    (hP : (st ("wuüeéiíhaáoóIUj")).all P = true) :
    ∀ {l : List Char}, altABody ipa l = true → ∀ c ∈ l, P c = true := by
  have hh : P 'h' = true := contains_imp hP (by decide)
  have hclose : (closeSet ipa).all P = true :=
    all_of_subset (by cases ipa <;> decide) hP
  have haeo : (st ("aeoáéó")).all P = true := all_of_subset (by decide) hP
  intro l hl c hc
  cases l with
  | nil => cases hc
  | cons c0 rest =>
    simp only [altABody, Bool.or_eq_true, Bool.and_eq_true, decide_eq_true_eq] at hl
    rcases List.mem_cons.mp hc with hceq | hcr
    · rcases hl with (⟨he, _⟩ | ⟨hi1, _⟩) | ⟨hi2, _⟩
      · rcases he with h | h
        · rw [hceq, h]; exact contains_imp hP (by decide)
        · rw [hceq, h]; exact contains_imp hP (by decide)
      · rw [hceq, hi1]; exact contains_imp hP (by decide)
      · rw [hceq, hi2]; exact contains_imp hP (by decide)
    · rcases hl with (⟨_, hrest⟩ | ⟨_, hrest2⟩) | ⟨_, hrest3⟩
      · rcases hrest with h | h
        · rw [h] at hcr; cases hcr
        · exact hThenOne_all hh hclose h c hcr
      · rcases hrest2 with h | h
        · rw [h] at hcr; cases hcr
        · exact hThenOne_all hh haeo h c hcr
      · rw [hrest3] at hcr; cases hcr

theorem altB_tail_all {ipa : Bool} {P : Char → Bool}
    (hP : (st ("wuüeéiíhaáoóIUj")).all P = true) {c0 : Char} {rest : List Char}
    (hB : altB ipa (c0 :: rest) = true) : ∀ c ∈ rest, P c = true := by
  have hh : P 'h' = true := contains_imp hP (by decide)
  have hclose : (closeSet ipa).all P = true :=
    all_of_subset (by cases ipa <;> decide) hP
  have hmid : (st ("aáoóeéi")).all P = true := all_of_subset (by decide) hP
  intro c hc
  simp only [altB, Bool.and_eq_true] at hB
  obtain ⟨_, hrest⟩ := hB
  have hsplit := List.takeWhile_append_dropWhile (p := fun c => decide (c = 'h')) (l := rest)
  rw [← hsplit] at hc
  rcases List.mem_append.mp hc with h1 | h2
  · have hch := List.mem_takeWhile_imp h1
    have hc' : c = 'h' := by simpa using hch
    rw [hc']; exact hh
  · cases hd : dropHs rest with
    | nil => rw [hd] at hrest; simp at hrest
    | cons v rest2 =>
      rw [hd] at hrest
      simp only [Bool.and_eq_true, Bool.or_eq_true, decide_eq_true_eq] at hrest
      obtain ⟨hv, hrest2⟩ := hrest
      have h2' : c ∈ dropHs rest := h2
      rw [hd] at h2'
      rcases List.mem_cons.mp h2' with rfl | hc2
      · exact contains_imp hmid hv
      · rcases hrest2 with h | h
        · rw [h] at hc2; cases hc2
        · exact hThenOne_all hh hclose h c hc2

theorem inL_ne_nil {ipa : Bool} {s : List Char} (h : inL ipa s = true) : s ≠ [] := by
  intro h0
  rw [h0] at h
  simp [inL, altA, altB, altC] at h

theorem inL_cases {ipa : Bool} {s : List Char} (h : inL ipa s = true) :
    altA ipa s = true ∨ altB ipa s = true ∨ altC ipa s = true := by
  simp only [inL, Bool.or_eq_true] at h
  tauto

theorem inL_tail_all {ipa : Bool} {P : Char → Bool}
    (hP : (st ("wuüeéiíhaáoóIUj")).all P = true) :
    ∀ {s : List Char}, inL ipa s = true → ∀ c ∈ s.tail, P c = true := by
  have hh : P 'h' = true := contains_imp hP (by decide)
  have hclose : (closeSet ipa).all P = true :=
    all_of_subset (by cases ipa <;> decide) hP
  have hwu : (st ("wuü")).all P = true := all_of_subset (by decide) hP
  intro s hs c hc
  rcases inL_cases hs with hA | hB | hC
  · cases s with
    | nil => cases hc
    | cons c1 t =>
      cases t with
      | nil => exact absurd hA (by simp [altA])
      | cons c2 rest =>
        simp only [altA, Bool.and_eq_true] at hA
        obtain ⟨⟨_, hc2⟩, hbody⟩ := hA
        rcases List.mem_cons.mp hc with hceq | hcr
        · rw [hceq]; exact contains_imp hwu hc2
        · exact altABody_all hP hbody c hcr
  · cases s with
    | nil => cases hc
    | cons c0 rest => exact altB_tail_all hP hB c hc
  · cases s with
    | nil => cases hc
    | cons c0 rest =>
      simp only [altC, Bool.and_eq_true] at hC
      exact hThenOne_all hh hclose hC.2 c hc

theorem inL_head_all {ipa : Bool} {P : Char → Bool}
    (hP : (st ("gqiuIUjwaáoóeéí")).all P = true) :
    ∀ {s : List Char}, inL ipa s = true → ∀ c t, s = c :: t → P c = true := by
  have hclose : (closeSet ipa).all P = true :=
    all_of_subset (by cases ipa <;> decide) hP
  have hgq : (st ("qg")).all P = true := all_of_subset (by decide) hP
  have hcset : (st ("aáoóeéií")).all P = true := all_of_subset (by decide) hP
  intro s hs c t hst
  subst hst
  rcases inL_cases hs with hA | hB | hC
  · cases t with
    | nil => exact absurd hA (by simp [altA])
    | cons c2 rest =>
      simp only [altA, Bool.and_eq_true] at hA
      exact contains_imp hgq hA.1.1
  · simp only [altB, Bool.and_eq_true] at hB
    exact contains_imp hclose hB.1
  · simp only [altC, Bool.and_eq_true] at hC
    exact contains_imp hcset hC.1

theorem inL_no_underscore {ipa : Bool} {s : List Char} (h : inL ipa s = true) :
    '_' ∉ s := by
  intro hmem
  cases s with
  | nil => cases hmem
  | cons c t =>
    rcases List.mem_cons.mp hmem with hc | ht
    · have := inL_head_all (P := fun c => !(c = '_')) (by decide) h c t rfl
      rw [← hc] at this
      simp at this
    · have := inL_tail_all (P := fun c => !(c = '_')) (by decide) h '_' ht
      simp at this

theorem inL_gq_split {ipa : Bool} {s : List Char} (h : inL ipa s = true) :
    s.take (s.length - (s.filter gqFree).length) ++ s.filter gqFree = s ∧
      0 < (s.filter gqFree).length := by
  cases s with
  | nil => exact absurd rfl (inL_ne_nil h)
  | cons c t =>
    have ht : ∀ x ∈ t, gqFree x = true :=
      inL_tail_all (P := gqFree) (by decide) h
    have htf : t.filter gqFree = t := List.filter_eq_self.mpr ht
    by_cases hg : gqFree c = true
    · have hf : (c :: t).filter gqFree = c :: t := by
        rw [List.filter_cons, if_pos hg, htf]
      rw [hf]
      constructor
      · simp
      · simp
    · have hf : (c :: t).filter gqFree = t := by
        rw [List.filter_cons, if_neg hg, htf]
      have htne : t ≠ [] := by
        rcases inL_cases h with hA | hB | hC
        · cases t with
          | nil => exact absurd hA (by simp [altA])
          | cons c2 rest => simp
        · simp only [altB, Bool.and_eq_true] at hB
          have hgc : gqFree c = true :=
            contains_imp (S := closeSet ipa) (by cases ipa <;> decide) hB.1
          exact absurd hgc hg
        · simp only [altC, Bool.and_eq_true] at hC
          have hgc : gqFree c = true :=
            contains_imp (S := st ("aáoóeéií")) (by decide) hC.1
          exact absurd hgc hg
      rw [hf]
      constructor
      · have hlen : (c :: t).length - t.length = 1 := by simp
        rw [hlen]
        simp
      · cases t with
        | nil => exact absurd rfl htne
        | cons x xs => simp

theorem findDiphSuffix_some {ipa : Bool} :
    ∀ {w s : List Char}, findDiphSuffix ipa w = some s →
      inL ipa s = true ∧ s <:+ w := by
  intro w
  induction w with
  | nil => intro s h; simp [findDiphSuffix] at h
  | cons c rest ih =>
    intro s h
    simp only [findDiphSuffix] at h
    by_cases hin : inL ipa (c :: rest) = true
    · rw [if_pos hin] at h
      cases h
      exact ⟨hin, List.suffix_refl _⟩
    · rw [if_neg hin] at h
      obtain ⟨h1, h2⟩ := ih h
      exact ⟨h1, h2.trans (List.suffix_cons c rest)⟩

/-! Conservation lemmas for `split`. -/

theorem splitGo_flatten (ipa : Bool) :
    ∀ (fuel : Nat) (w : List Char) (acc : List (List Char)), w.length ≤ fuel →
      (splitGo ipa fuel w acc).flatten = w ++ acc.flatten := by
  intro fuel
  induction fuel with
  | zero =>
    intro w acc hw
    have hnil : w = [] := List.eq_nil_of_length_eq_zero (Nat.le_zero.mp hw)
    subst hnil
    simp [splitGo]
  | succ fuel ih =>
    intro w acc hw
    simp only [splitGo]
    cases hfind : findDiphSuffix ipa w with
    | some s =>
      obtain ⟨hin, hsuf⟩ := findDiphSuffix_some hfind
      obtain ⟨hsplit, hpos⟩ := inL_gq_split hin
      obtain ⟨pre, hpre⟩ := hsuf
      have hd_le : (s.filter gqFree).length ≤ s.length := List.length_filter_le _ _
      have hlen : w.length = pre.length + s.length := by rw [← hpre]; simp
      have htake : w.take (w.length - (s.filter gqFree).length)
          = pre ++ s.take (s.length - (s.filter gqFree).length) := by
        rw [← hpre, List.take_append_eq_append_take]
        have hla : (pre ++ s).length = pre.length + s.length := List.length_append _ _
        congr 1
        · exact List.take_of_length_le (by omega)
        · congr 1
          omega
      have hm : (w.take (w.length - (s.filter gqFree).length)).length ≤ fuel := by
        rw [List.length_take]
        have hsl : 0 < s.length := by
          cases s with
          | nil => exact absurd rfl (inL_ne_nil hin)
          | cons x xs => simp
        omega
      rw [ih _ _ hm]
      simp only [List.flatten_cons]
      rw [htake, ← hpre, ← List.append_assoc]
      rw [List.append_assoc pre]
      rw [hsplit]
    | none =>
      by_cases hdg : digraphs.contains (lastN 2 w) = true
      · rw [if_pos hdg]
        have hm : (dropLastN 2 w).length ≤ fuel := by
          simp only [dropLastN, List.length_take]
          omega
        rw [ih _ _ hm]
        simp only [List.flatten_cons]
        rw [← List.append_assoc, dropLastN_append_lastN]
      · rw [if_neg hdg]
        cases w with
        | nil => simp
        | cons c rest =>
          have hm : (dropLastN 1 (c :: rest)).length ≤ fuel := by
            simp only [dropLastN, List.length_take]
            simp only [List.length_cons] at hw ⊢
            omega
          rw [ih _ _ hm]
          simp only [List.flatten_cons]
          rw [← List.append_assoc, dropLastN_append_lastN]

theorem splitGo_seg_shape (ipa : Bool) :
    ∀ (fuel : Nat) (w : List Char) (acc : List (List Char)),
      (∀ seg ∈ acc, seg = ['_'] ∨ '_' ∉ seg) →
      ∀ seg ∈ splitGo ipa fuel w acc, seg = ['_'] ∨ '_' ∉ seg := by
  intro fuel
  induction fuel with
  | zero =>
    intro w acc hacc
    simpa [splitGo] using hacc
  | succ fuel ih =>
    intro w acc hacc
    simp only [splitGo]
    cases hfind : findDiphSuffix ipa w with
    | some s =>
      apply ih
      intro seg hseg
      rcases List.mem_cons.mp hseg with hseq | h
      · right
        rw [hseq]
        intro hu
        exact inL_no_underscore (findDiphSuffix_some hfind).1 (List.mem_of_mem_filter hu)
      · exact hacc seg h
    | none =>
      by_cases hdg : digraphs.contains (lastN 2 w) = true
      · rw [if_pos hdg]
        apply ih
        intro seg hseg
        rcases List.mem_cons.mp hseg with hseq | h
        · right
          rw [hseq]
          have hmem : lastN 2 w ∈ digraphs := by simpa using hdg
          intro hu
          simp only [digraphs, List.mem_cons, List.not_mem_nil, or_false] at hmem
          rcases hmem with h1 | h1 | h1 <;> rw [h1] at hu <;> simp [st] at hu
        · exact hacc seg h
      · rw [if_neg hdg]
        cases w with
        | nil => exact hacc
        | cons c rest =>
          apply ih
          intro seg hseg
          rcases List.mem_cons.mp hseg with hseq | h
          · have hlen : (lastN 1 (c :: rest)).length = 1 := by
              simp only [lastN, List.length_drop, List.length_cons]
              omega
            obtain ⟨x, hx⟩ := List.length_eq_one.mp hlen
            rw [hseq, hx]
            by_cases hxu : x = '_'
            · left; rw [hxu]
            · right
              simp only [List.mem_singleton]
              exact fun h => hxu h.symm
          · exact hacc seg h

theorem split_flatten (ipa : Bool) (w : List Char) : (split ipa w).flatten = w := by
  have h := splitGo_flatten ipa w.length w [] (le_refl _)
  simpa [split] using h

theorem split_seg_shape (ipa : Bool) (w : List Char) :
    ∀ seg ∈ split ipa w, seg = ['_'] ∨ '_' ∉ seg :=
  splitGo_seg_shape ipa w.length w [] (by simp)

/-! Conservation lemmas for `join`. -/

theorem filter_eq_self_of_no_underscore {seg : List Char} (h : '_' ∉ seg) :
    seg.filter (fun c => !(c = '_')) = seg := by
  apply List.filter_eq_self.mpr
  intro a ha
  simp only [Bool.not_eq_true']
  simp only [decide_eq_false_iff_not]
  intro hau
  exact h (hau ▸ ha)

theorem step_conserve (cfg : Config) (s : JoinSt) (seg : List Char)
    (hseg : seg = ['_'] ∨ '_' ∉ seg) :
    (stepJoin cfg s seg).word.flatten ++ (stepJoin cfg s seg).onset
      = s.word.flatten ++ s.onset ++ seg.filter (fun c => !(c = '_')) := by
  by_cases h1 : seg = ['_']
  · simp only [stepJoin, if_pos h1]
    have hfil : seg.filter (fun c => !(c = '_')) = [] := by
      rw [h1]; rfl
    rw [hfil]
    by_cases h2 : s.word = []
    · rw [if_pos h2]
      simp
    · rw [if_neg h2]
      simp [flatten_updateLast _ _ h2]
  · have hund : '_' ∉ seg := by
      rcases hseg with h | h
      · exact absurd h h1
      · exact h
    have hfil : seg.filter (fun c => !(c = '_')) = seg :=
      filter_eq_self_of_no_underscore hund
    rw [hfil]
    simp only [stepJoin, if_neg h1]
    by_cases h2 : allConsonant cfg.ipa seg = true
    · rw [if_pos h2]
      by_cases h3 : lastN 1 s.onset = ['y']
      · rw [if_pos h3]
        by_cases h4 : (s.onset = ['y'] && !s.word.isEmpty &&
            jsInc (st ("AOEÁÓÉaoeáóé")) (atNeg (s.word.getLast?.getD []) 1)) = true
        · rw [if_pos h4]
          simp only [Bool.and_eq_true] at h4
          have hne : s.word ≠ [] := by
            have hw := h4.1.2
            simp only [Bool.not_eq_true'] at hw
            intro hcontra
            rw [hcontra] at hw
            simp at hw
          simp [flatten_updateLast _ _ hne, List.append_assoc]
        · rw [if_neg h4]
          simp [List.append_assoc]
      · rw [if_neg h3]
        simp [List.append_assoc]
    · rw [if_neg h2]
      by_cases h3 : (decide (s.onset.length ≤ 1) || s.word.isEmpty) = true
      · rw [if_pos h3]
        simp [List.append_assoc]
      · rw [if_neg h3]
        have hne : s.word ≠ [] := by
          simp only [Bool.or_eq_true, decide_eq_true_eq] at h3
          push_neg at h3
          intro hcontra
          rw [hcontra] at h3
          simp at h3
        by_cases h4 : ((indivisibleOnset cfg.tl).any fun x => x.isSuffixOf s.onset) = true
        · rw [if_pos h4, if_neg hne]
          simp only []
          rw [List.flatten_append, flatten_updateLast _ _ hne]
          simp only [List.flatten_cons, List.flatten_nil, List.append_nil, List.append_assoc]
          congr 1
          rw [← List.append_assoc, dropLastN_append_lastN]
        · rw [if_neg h4]
          by_cases h5 : (indivisibleCoda.any (fun x => x.isPrefixOf s.onset) &&
              decide (2 < s.onset.length)) = true
          · rw [if_pos h5]
            simp only []
            rw [List.flatten_append, flatten_updateLast _ _ hne]
            simp only [List.flatten_cons, List.flatten_nil, List.append_nil, List.append_assoc]
            congr 1
            rw [← List.append_assoc, List.take_append_drop]
          · rw [if_neg h5]
            by_cases h6 : sonorityCase s.onset = true
            · rw [if_pos h6]
              simp only []
              rw [List.flatten_append, flatten_updateLast _ _ hne]
              simp only [List.flatten_cons, List.flatten_nil, List.append_nil, List.append_assoc]
              congr 1
              rw [← List.append_assoc, dropLastN_append_lastN]
            · rw [if_neg h6]
              simp only []
              rw [List.flatten_append, flatten_updateLast _ _ hne]
              simp only [List.flatten_cons, List.flatten_nil, List.append_nil, List.append_assoc]
              congr 1
              rw [← List.append_assoc, List.take_append_drop]

theorem finish_conserve (s : JoinSt) :
    (finishJoin s).flatten = s.word.flatten ++ s.onset := by
  simp only [finishJoin]
  by_cases h1 : s.onset = []
  · rw [if_pos h1, h1]
    simp
  · rw [if_neg h1]
    by_cases h2 : s.word.length < 1
    · rw [if_pos h2]
      have : s.word = [] := by
        cases hw : s.word with
        | nil => rfl
        | cons x xs => rw [hw] at h2; simp at h2
      rw [this]
      simp
    · have hne : s.word ≠ [] := by
        intro hcontra
        rw [hcontra] at h2
        simp at h2
      rw [if_neg h2]
      by_cases h3 : (lastN 1 s.onset = ['y'] && decide (s.onset.length = 1)) = true
      · rw [if_pos h3]
        exact flatten_updateLast _ _ hne
      · rw [if_neg h3]
        by_cases h4 : lastN 1 s.onset = ['y']
        · rw [if_pos h4]
          rw [List.flatten_append, flatten_updateLast _ _ hne]
          simp only [List.flatten_cons, List.flatten_nil, List.append_nil, List.append_assoc]
          congr 1
          exact dropLastN_append_lastN 2 s.onset
        · rw [if_neg h4]
          exact flatten_updateLast _ _ hne

theorem foldl_conserve (cfg : Config) :
    ∀ (segs : List (List Char)) (s : JoinSt),
      (∀ seg ∈ segs, seg = ['_'] ∨ '_' ∉ seg) →
      ((segs.foldl (stepJoin cfg) s).word.flatten ++ (segs.foldl (stepJoin cfg) s).onset
        = s.word.flatten ++ s.onset ++ segs.flatten.filter (fun c => !(c = '_'))) := by
  intro segs
  induction segs with
  | nil =>
    intro s _
    simp
  | cons seg rest ih =>
    intro s hsegs
    simp only [List.foldl_cons, List.flatten_cons, List.filter_append]
    rw [ih _ (fun x hx => hsegs x (List.mem_cons_of_mem _ hx))]
    rw [step_conserve cfg s seg (hsegs seg (List.mem_cons_self _ _))]
    simp [List.append_assoc]

theorem join_flatten (cfg : Config) (segs : List (List Char))
    (hsegs : ∀ seg ∈ segs, seg = ['_'] ∨ '_' ∉ seg) :
    (join cfg segs).flatten = segs.flatten.filter (fun c => !(c = '_')) := by
  unfold join
  rw [finish_conserve]
  rw [foldl_conserve cfg segs _ hsegs]
  simp

/-! Normalization and trimming lemmas. -/

theorem lookup_mem {α β : Type} [BEq α] [LawfulBEq α] {t : List (α × β)} {k : α} {v : β}
    (h : t.lookup k = some v) : (k, v) ∈ t := by
  induction t with
  | nil => simp [List.lookup] at h
  | cons p rest ih =>
    obtain ⟨a, b⟩ := p
    simp only [List.lookup] at h
    cases hbeq : (k == a) with
    | true =>
      rw [hbeq] at h
      simp only [] at h
      cases h
      have hk : k = a := eq_of_beq hbeq
      rw [hk]
      exact List.mem_cons_self _ _
    | false =>
      rw [hbeq] at h
      exact List.mem_cons_of_mem _ (ih h)

theorem foreignLig_kept {b c : Char} (hb : isKept b = true) (hc : c ∈ foreignLig b) :
    isKept c = true := by
  simp only [foreignLig] at hc
  cases hl : foreignLigTable.lookup b with
  | none =>
    rw [hl] at hc
    rcases List.mem_singleton.mp hc with rfl
    exact hb
  | some r =>
    rw [hl] at hc
    have hmem : (b, r) ∈ foreignLigTable := lookup_mem hl
    have hall : foreignLigTable.all (fun p => p.2.all isKept) = true := by decide
    have hr : r.all isKept = true := List.all_eq_true.mp hall _ hmem
    exact List.all_eq_true.mp hr _ hc

theorem mem_normalize_kept {w : List Char} {c : Char} (hc : c ∈ normalize w) :
    isKept c = true := by
  simp only [normalize] at hc
  rw [List.mem_flatMap] at hc
  obtain ⟨b, hb, hcb⟩ := hc
  exact foreignLig_kept (List.of_mem_filter hb) hcb

theorem kept_not_ws {c : Char} (h : isKept c = true) : isJsWs c = false := by
  have hnot : ¬ isJsWs c = true := by
    intro hws
    simp only [isJsWs, Bool.or_eq_true, decide_eq_true_eq] at hws
    rcases hws with ((((h1 | h1) | h1) | h1) | h1) | h1 <;> rw [h1] at h <;>
      exact absurd h (by decide)
  cases hb : isJsWs c with
  | false => rfl
  | true => exact absurd hb hnot

theorem dropWhile_eq_self_of_false {p : Char → Bool} {l : List Char}
    (h : ∀ c ∈ l, p c = false) : l.dropWhile p = l := by
  cases l with
  | nil => rfl
  | cons x xs =>
    rw [List.dropWhile_cons]
    rw [h x (List.mem_cons_self _ _)]
    simp

theorem trim_noop {s : List Char} (h : ∀ c ∈ s, isJsWs c = false) : trimF s = s := by
  unfold trimF
  rw [dropWhile_eq_self_of_false h]
  rw [dropWhile_eq_self_of_false (fun c hc => h c (List.mem_reverse.mp hc))]
  exact List.reverse_reverse s

/-! The concatenation invariant for the string path of `syllabify`. -/

theorem syllabifyStr_flatten (cfg : Config) (w : List Char) :
    (syllabifyStr cfg w).flatten = (normalize w).filter (fun c => !(c = '_')) := by
  have hsegs := split_seg_shape cfg.ipa (normalize w)
  have hflat := split_flatten cfg.ipa (normalize w)
  have hjoin := join_flatten cfg _ hsegs
  rw [hflat] at hjoin
  have htrim : ∀ syl ∈ join cfg (split cfg.ipa (normalize w)), trimF syl = id syl := by
    intro syl hsyl
    show trimF syl = syl
    apply trim_noop
    intro c hc
    have hcflat : c ∈ (join cfg (split cfg.ipa (normalize w))).flatten :=
      List.mem_flatten.mpr ⟨syl, hsyl, hc⟩
    rw [hjoin] at hcflat
    exact kept_not_ws (mem_normalize_kept (List.mem_of_mem_filter hcflat))
  unfold syllabifyStr
  rw [List.map_congr_left htrim, List.map_id]
  exact hjoin

/-! Stress lemmas. -/

theorem contains_aeiouy (c : Char) :
    (st ("aeiouAEIOUy")).contains c
      = ((st ("aeiouAEIOU")).contains c || decide (c = 'y')) := by
  have h : st ("aeiouAEIOUy") = st ("aeiouAEIOU") ++ ['y'] := rfl
  rw [h]
  simp [List.contains]

theorem stress_range (sylls : List (List Char)) :
    stressedSyllable sylls ≤ -1 ∧
    (1 ≤ sylls.length → -(sylls.length : Int) ≤ stressedSyllable sylls) ∧
    (sylls.length ≤ 1 → stressedSyllable sylls = -1) := by
  by_cases h0 : sylls.length = 0
  · have hv : stressedSyllable sylls = -1 := by
      unfold stressedSyllable; rw [if_pos h0]
    rw [hv]
    exact ⟨le_refl _, fun h1 => by omega, fun _ => rfl⟩
  · by_cases h1 : sylls.length = 1
    · have hv : stressedSyllable sylls = -1 := by
        unfold stressedSyllable; rw [if_neg h0, if_pos h1]
      rw [hv]
      exact ⟨le_refl _, fun _ => by omega, fun _ => rfl⟩
    · by_cases hacc : sylls.flatten.any hasAccent = true
      · cases hidx : findAccentIdx sylls with
        | none =>
          have hv : stressedSyllable sylls = -1 := by
            unfold stressedSyllable; rw [if_neg h0, if_neg h1, if_pos hacc, hidx]
          rw [hv]
          exact ⟨le_refl _, fun _ => by omega, fun h => by omega⟩
        | some i =>
          have hlt := findAccentIdx_lt hidx
          have hv : stressedSyllable sylls = (i : Int) - sylls.length := by
            unfold stressedSyllable; rw [if_neg h0, if_neg h1, if_pos hacc, hidx]
          rw [hv]
          exact ⟨by omega, fun _ => by omega, fun h => by omega⟩
      · have hd : stressedSyllable sylls = -1 ∨ stressedSyllable sylls = -2 := by
          unfold stressedSyllable
          rw [if_neg h0, if_neg h1, if_neg hacc]
          dsimp only
          split_ifs <;> first | (left; rfl) | (right; rfl)
        rcases hd with hv | hv <;> rw [hv] <;>
          exact ⟨by omega, fun _ => by omega, fun h => by omega⟩

theorem stressedSyllable_eq_spec (sylls : List (List Char))
    (hlen : 2 ≤ sylls.length)
    (hacc : ∀ syl ∈ sylls, ∀ c ∈ syl, hasAccent c = false) :
    stressedSyllable sylls = stressDefaultSpec sylls := by
  have h0 : ¬ sylls.length = 0 := by omega
  have h1 : ¬ sylls.length = 1 := by omega
  have hany : sylls.flatten.any hasAccent = false := by
    rw [List.any_eq_false]
    intro c hc
    obtain ⟨syl, hsyl, hcs⟩ := List.mem_flatten.mp hc
    simp [hacc syl hsyl c hcs]
  unfold stressedSyllable stressDefaultSpec
  rw [if_neg h0, if_neg h1, if_neg (by rw [hany]; exact Bool.false_ne_true)]
  cases hrev : (sylls.getLast?.getD []).reverse with
  | nil =>
    have hat1 : atNeg (sylls.getLast?.getD []) 1 = none := by
      simp [atNeg, hrev]
    have hat2 : atNeg (sylls.getLast?.getD []) 2 = none := by
      simp [atNeg, hrev]
    simp [jsInc, hat1, hat2]
  | cons c1 rest1 =>
    have hat1 : atNeg (sylls.getLast?.getD []) 1 = some c1 := by
      simp [atNeg, hrev]
    cases rest1 with
    | nil =>
      have hat2 : atNeg (sylls.getLast?.getD []) 2 = none := by
        simp [atNeg, hrev]
      simp only [jsInc, hat1, hat2, Bool.and_false, Bool.false_and]
      rw [contains_aeiouy]
      simp
    | cons c2 rest2 =>
      have hat2 : atNeg (sylls.getLast?.getD []) 2 = some c2 := by
        simp [atNeg, hrev]
      simp only [jsInc, hat1, hat2]
      rw [contains_aeiouy]

/-! Lemmas about the accent placement of `latin`. -/

theorem decomp_three {l : List (List Char)} (h : 2 < l.length) :
    ∃ (pre : List (List Char)) (a p u : List Char), l = pre ++ [a, p, u] := by
  cases hrev : l.reverse with
  | nil =>
    rw [List.reverse_eq_nil_iff] at hrev
    rw [hrev] at h
    simp at h
  | cons u rest1 =>
    cases rest1 with
    | nil =>
      have : l.length = 1 := by
        have := congrArg List.length hrev
        simpa using this
      omega
    | cons p rest2 =>
      cases rest2 with
      | nil =>
        have : l.length = 2 := by
          have := congrArg List.length hrev
          simpa using this
        omega
      | cons a pre' =>
        refine ⟨pre'.reverse, a, p, u, ?_⟩
        have : l = (u :: p :: a :: pre').reverse := by
          rw [← hrev, List.reverse_reverse]
        rw [this]
        simp [List.append_assoc]

theorem getD_append3_penult (pre : List (List Char)) (a p u : List Char) :
    (pre ++ [a, p, u]).getD (pre.length + 1) [] = p := by
  induction pre with
  | nil => rfl
  | cons x xs ih => simpa [List.getD] using ih

theorem getD_append3_ante (pre : List (List Char)) (a p u : List Char) :
    (pre ++ [a, p, u]).getD pre.length [] = a := by
  induction pre with
  | nil => rfl
  | cons x xs ih => simpa [List.getD] using ih

theorem set_append3_penult (pre : List (List Char)) (a p u x : List Char) :
    (pre ++ [a, p, u]).set (pre.length + 1) x = pre ++ [a, x, u] := by
  induction pre with
  | nil => rfl
  | cons y ys ih => simp [List.set, ih]

theorem set_append3_ante (pre : List (List Char)) (a p u x : List Char) :
    (pre ++ [a, p, u]).set pre.length x = pre ++ [x, p, u] := by
  induction pre with
  | nil => rfl
  | cons y ys ih => simp [List.set, ih]

theorem accent_scan_eq (syl : List Char) :
    accentFirstTableVowel syl = accentScanSpec syl := by
  unfold accentFirstTableVowel accentScanSpec
  by_cases h1 : 'a' ∈ syl
  · simp [st, List.find?, h1, accentOf]
  · by_cases h2 : 'e' ∈ syl
    · simp [st, List.find?, h1, h2, accentOf]
    · by_cases h3 : 'i' ∈ syl
      · simp [st, List.find?, h1, h2, h3, accentOf]
      · by_cases h4 : 'o' ∈ syl
        · simp [st, List.find?, h1, h2, h3, h4, accentOf]
        · by_cases h5 : 'u' ∈ syl
          · simp [st, List.find?, h1, h2, h3, h4, h5, accentOf]
          · simp [st, List.find?, h1, h2, h3, h4, h5]

theorem latinAccent_eq_spec (sylls : List (List Char)) (hlen : 2 < sylls.length) :
    latinAccent sylls = latinAccentSpec sylls := by
  obtain ⟨pre, a, p, u, rfl⟩ := decomp_three hlen
  have hn : (pre ++ [a, p, u]).length = pre.length + 3 := by simp
  have hrev : (pre ++ [a, p, u]).reverse = u :: p :: a :: pre.reverse := by
    simp
  unfold latinAccent latinAccentSpec
  rw [hn, hrev]
  have hn2 : pre.length + 3 - 2 = pre.length + 1 := by omega
  have hn3 : pre.length + 3 - 3 = pre.length := by omega
  rw [hn2, hn3]
  rw [getD_append3_penult, getD_append3_ante]
  have hc2 : ¬ (pre.length + 3 = 2) := by omega
  have hc1 : decide (1 < pre.length + 3) = true := by simp
  simp only [hc2, decide_False, hc1, Bool.true_and, Bool.false_or, decide_eq_true_eq]
  by_cases hp : longSyl p = true
  · rw [if_pos (by simp [hp, hc2]), if_pos hp]
    unfold setIdx
    rw [getD_append3_penult, set_append3_penult, accent_scan_eq]
    simp [List.append_assoc]
  · rw [if_neg (by simp [hp, hc2]), if_neg hp]
    by_cases ha : longSyl a = true
    · rw [if_pos ha]
      unfold setIdx
      rw [getD_append3_ante, set_append3_ante, accent_scan_eq]
      simp [ha, List.append_assoc]
    · rw [if_neg ha]
      unfold setIdx
      rw [getD_append3_penult, set_append3_penult]
      simp [ha, List.append_assoc]

/-! Equivalence of the safe (exception-aware) variants with the plain
embedding: no reachable `TypeError`. -/

theorem getElem?_eq_getD {l : List (List Char)} {i : Nat} (h : i < l.length) :
    l[i]? = some (l.getD i []) := by
  rw [List.getElem?_eq_getElem h]
  congr 1
  rw [List.getD_eq_getElem?_getD]
  rw [List.getElem?_eq_getElem h]
  rfl

theorem latinAccentSafe_eq {sylls : List (List Char)} (h : 1 < sylls.length) :
    latinAccentSafe sylls = some (latinAccent sylls) := by
  have h2 : sylls.length - 2 < sylls.length := by omega
  have hp2 : sylls[sylls.length - 2]? = some (sylls.getD (sylls.length - 2) []) :=
    getElem?_eq_getD h2
  simp only [latinAccentSafe, latinAccent, setIdx]
  by_cases hn2 : sylls.length = 2
  · rw [if_pos hn2]
    simp only [Option.bind_eq_bind, Option.some_bind]
    rw [if_pos trivial, hp2]
    simp only [Option.bind_eq_bind, Option.some_bind]
    rw [if_pos (by simp [hn2])]
  · rw [if_neg hn2, if_pos h, hp2]
    have h3 : sylls.length - 3 < sylls.length := by omega
    have hp3 : sylls[sylls.length - 3]? = some (sylls.getD (sylls.length - 3) []) :=
      getElem?_eq_getD h3
    simp only [Option.bind_eq_bind, Option.some_bind]
    by_cases hlong : longSyl (sylls.getD (sylls.length - 2) []) = true
    · rw [hlong]
      have hrc : (decide (sylls.length = 2) || decide (1 < sylls.length) && true) = true := by
        simp [h]
      rw [if_pos rfl, if_pos hrc]
    · rw [Bool.not_eq_true] at hlong
      rw [hlong]
      have hfals : ¬ ((false : Bool) = true) := by simp
      rw [if_neg hfals, hp3]
      simp only [Option.bind_eq_bind, Option.some_bind]
      have hrc : ¬ ((decide (sylls.length = 2) || decide (1 < sylls.length) && false) = true) := by
        simp [hn2]
      rw [if_neg hrc]
      by_cases hla : longSyl (sylls.getD (sylls.length - 3) []) = true
      · rw [if_pos hla, if_pos hla]
      · rw [if_neg hla, if_neg hla]

theorem latinSafe_eq (cfg : Config) (w : List Char) :
    latinSafe cfg w = some (latin cfg w) := by
  simp only [latinSafe, latin]
  by_cases hc : (flexiones.any (fun f => lastN f.length (w.map jsToLower) = f) &&
      !((st ("áéíóú")).any (fun a => (w.map jsToLower).contains a))) = true
  · rw [if_pos hc, if_pos hc]
    by_cases hlen : 1 <
        (syllabifyStr cfg
          (replaceFirst (st ("oe")) (st ("œ"))
            (replaceFirst (st ("ae")) (st ("æ"))
              (match flexiones.find? (fun f => lastN f.length (w.map jsToLower) = f) with
               | some f => insertSentinel f (w.map jsToLower)
               | none => w.map jsToLower)))).length
    · rw [if_pos hlen, if_pos hlen, latinAccentSafe_eq hlen]
      rfl
    · rw [if_neg hlen, if_neg hlen]
  · rw [if_neg hc, if_neg hc]

theorem stressedSafe_eq (sylls : List (List Char)) :
    stressedSafe sylls = some (stressedSyllable sylls) := by
  simp only [stressedSafe, stressedSyllable]
  by_cases h0 : sylls.length = 0
  · rw [if_pos h0, if_pos h0]
  · rw [if_neg h0, if_neg h0]
    by_cases h1 : sylls.length = 1
    · rw [if_pos h1, if_pos h1]
    · rw [if_neg h1, if_neg h1]
      by_cases hacc : sylls.flatten.any hasAccent = true
      · rw [if_pos hacc, if_pos hacc]
        cases findAccentIdx sylls <;> rfl
      · rw [if_neg hacc, if_neg hacc]
        have hne : sylls ≠ [] := by
          intro hnil
          rw [hnil] at h0
          simp at h0
        obtain ⟨l, hl⟩ : ∃ l, sylls.getLast? = some l :=
          Option.isSome_iff_exists.mp (List.getLast?_isSome.mpr hne)
        simp only [hl, Option.bind_eq_bind, Option.some_bind, Option.getD_some]
        split_ifs <;> rfl

theorem preprocessSafe_eq (cfg : Config) (subst : List Char → List Char) (w : List Char) :
    preprocessSafe cfg subst w = some (preprocess cfg subst w) := by
  simp only [preprocessSafe, preprocess]
  by_cases hc : 0 < cfg.exceptions
  · rw [if_pos hc, if_pos hc, latinSafe_eq]
  · rw [if_neg hc, if_neg hc]

theorem runSafe_eq (cfg : Config) (subst : List Char → List Char) (w : List Char) :
    runSafe cfg subst w = some (run cfg subst w) := by
  unfold runSafe run
  rw [preprocessSafe_eq]
  simp only [Option.bind_eq_bind, Option.some_bind]
  rw [stressedSafe_eq]
  rfl

/-! The concatenation invariant for the whole pipeline, and the absence of
sentinels in the output. -/

theorem run_flatten (cfg : Config) (subst : List Char → List Char) (w : List Char) :
    (run cfg subst w).1.flatten = normalizedOf cfg subst w := by
  unfold run normalizedOf
  cases hpre : preprocess cfg subst w with
  | inl s =>
    simp only [syllabifyAny]
    exact syllabifyStr_flatten cfg s
  | inr a => simp [syllabifyAny]

theorem syllabifyStr_no_underscore (cfg : Config) (w : List Char) :
    ∀ syl ∈ syllabifyStr cfg w, '_' ∉ syl := by
  intro syl hm hu
  have hflat : '_' ∈ (syllabifyStr cfg w).flatten := List.mem_flatten.mpr ⟨syl, hm, hu⟩
  rw [syllabifyStr_flatten] at hflat
  have := List.of_mem_filter hflat
  simp at this

theorem accentFirstTableVowel_no_underscore {s : List Char} (h : '_' ∉ s) :
    '_' ∉ accentFirstTableVowel s := by
  unfold accentFirstTableVowel
  cases hf : (st ("aeiou")).find? (fun k => s.contains k) with
  | none => exact h
  | some k =>
    intro hu
    rcases mem_replaceFirst hu with h1 | h1
    · exact h h1
    · have hk : k ∈ st ("aeiou") := List.mem_of_find?_eq_some hf
      have h1' : '_' = accentOf k := List.mem_singleton.mp h1
      simp only [st, List.mem_cons, List.not_mem_nil, or_false] at hk
      rcases hk with rfl | rfl | rfl | rfl | rfl <;> exact absurd h1' (by decide)

theorem replaceFirst_accent_no_underscore {s : List Char} (h : '_' ∉ s) :
    '_' ∉ replaceFirst ['a'] ['á'] s := by
  intro hu
  rcases mem_replaceFirst hu with h1 | h1
  · exact h h1
  · exact absurd (List.mem_singleton.mp h1) (by decide)

theorem latinAccent_no_underscore {sylls : List (List Char)}
    (h : ∀ syl ∈ sylls, '_' ∉ syl) :
    ∀ syl ∈ latinAccent sylls, '_' ∉ syl := by
  have hgetD : ∀ i : Nat, '_' ∉ sylls.getD i [] := by
    intro i
    by_cases hi : i < sylls.length
    · rw [List.getD_eq_getElem?_getD, List.getElem?_eq_getElem hi]
      exact h _ (List.getElem_mem hi)
    · rw [List.getD_eq_default _ _ (by omega)]
      exact List.not_mem_nil _
  intro syl hm
  unfold latinAccent setIdx at hm
  split_ifs at hm <;>
    rcases List.mem_or_eq_of_mem_set hm with h1 | h1
  · exact h syl h1
  · rw [h1]; exact accentFirstTableVowel_no_underscore (hgetD _)
  · exact h syl h1
  · rw [h1]; exact accentFirstTableVowel_no_underscore (hgetD _)
  · exact h syl h1
  · rw [h1]; exact replaceFirst_accent_no_underscore (hgetD _)

set_option maxHeartbeats 1000000 in
theorem latin_inr_no_underscore (cfg : Config) (w : List Char) (a : List (List Char))
    (h : latin cfg w = Sum.inr a) : ∀ syl ∈ a, '_' ∉ syl := by
  simp only [latin] at h
  split at h
  · split at h
    · cases h
      exact latinAccent_no_underscore (syllabifyStr_no_underscore cfg _)
    · cases h
      exact syllabifyStr_no_underscore cfg _
  · cases h

theorem run_no_underscore (cfg : Config) (subst : List Char → List Char) (w : List Char)
    (syl : List Char) (hmem : syl ∈ (run cfg subst w).1) : '_' ∉ syl := by
  simp only [run] at hmem
  cases hpre : preprocess cfg subst w with
  | inl s =>
    rw [hpre] at hmem
    exact syllabifyStr_no_underscore cfg s syl hmem
  | inr a =>
    rw [hpre] at hmem
    simp only [syllabifyAny] at hmem
    unfold preprocess at hpre
    by_cases hexc : 0 < cfg.exceptions
    · rw [if_pos hexc] at hpre
      exact latin_inr_no_underscore cfg _ a hpre syl hmem
    · rw [if_neg hexc] at hpre
      cases hpre

/-! Lemmas for inputs without letters, digits or underscores (claim C9). -/

theorem prefix_keeps {p w : List Char} (hw : ∀ c ∈ w, isKept c = false)
    {c : Char} (hc : c ∈ p) (hk : isKept c = true) : p.isPrefixOf w = false := by
  cases hb : p.isPrefixOf w with
  | false => rfl
  | true =>
    have hsub := (List.isPrefixOf_iff_prefix.mp hb).subset
    have hf := hw c (hsub hc)
    rw [hk] at hf
    cases hf

theorem epenthesis_keptless {w : List Char} (hw : ∀ c ∈ w, isKept c = false) :
    epenthesis w = w := by
  unfold epenthesis
  have hnone : liquidae.find? (fun o => o.isPrefixOf w) = none := by
    rw [List.find?_eq_none]
    intro o ho
    have hall : liquidae.all (fun o => o.contains 's') = true := by decide
    have hsm : 's' ∈ o := by simpa using List.all_eq_true.mp hall o ho
    simp [prefix_keeps hw hsm (by decide)]
  rw [hnone]

theorem makeExceptions_keptless (hiatus : Bool) (subst : List Char → List Char)
    {w : List Char} (hw : ∀ c ∈ w, isKept c = false) :
    makeExceptions hiatus subst w = subst w := by
  unfold makeExceptions
  have hany : caparros.any (fun p => p.1.isPrefixOf w) = false := by
    rw [List.any_eq_false]
    intro p hp
    simp only [caparros, List.mem_cons, List.not_mem_nil, or_false] at hp
    rcases hp with rfl | rfl | rfl
    · simp [prefix_keeps hw (show 'f' ∈ st ("fie") by decide) (by decide)]
    · simp [prefix_keeps hw (show 's' ∈ st ("sua") by decide) (by decide)]
    · simp [prefix_keeps hw (show 'r' ∈ st ("rui") by decide) (by decide)]
  rw [hany]
  simp

theorem jsToLower_keptless {c : Char} (h : isKept c = false) : jsToLower c = c := by
  unfold jsToLower
  cases hl : lowerTable.lookup c with
  | some r =>
    exfalso
    have hmem := lookup_mem hl
    have hkeys : lowerTable.all (fun p => isKept p.1) = true := by decide
    have hc : isKept c = true := List.all_eq_true.mp hkeys _ hmem
    rw [h] at hc
    cases hc
  | none =>
    show c.toLower = c
    unfold Char.toLower
    by_cases hrange : 65 ≤ c.toNat ∧ c.toNat ≤ 90
    · exfalso
      have hup : c.isUpper = true := by
        simp only [Char.isUpper, Bool.and_eq_true, decide_eq_true_eq]
        exact ⟨hrange.1, hrange.2⟩
      have halpha : c.isAlpha = true := by
        simp [Char.isAlpha, hup]
      have hkept : isKept c = true := by
        simp [isKept, halpha]
      rw [h] at hkept
      cases hkept
    · rw [if_neg (by omega)]

theorem map_jsToLower_keptless {w : List Char} (hw : ∀ c ∈ w, isKept c = false) :
    ∀ c ∈ w.map jsToLower, isKept c = false := by
  intro c hc
  obtain ⟨b, hb, rfl⟩ := List.mem_map.mp hc
  rw [jsToLower_keptless (hw b hb)]
  exact hw b hb

theorem latin_keptless (cfg : Config) {w : List Char}
    (hw : ∀ c ∈ w, isKept c = false) : latin cfg w = Sum.inl w := by
  have hlw := map_jsToLower_keptless hw
  simp only [latin]
  have hany : flexiones.any (fun f => lastN f.length (w.map jsToLower) = f) = false := by
    rw [List.any_eq_false]
    intro f hf
    have hall : flexiones.all (fun f => f.contains 'm' || f.contains 't') = true := by decide
    have hmt := List.all_eq_true.mp hall f hf
    intro heq
    have heq' : lastN f.length (w.map jsToLower) = f := by simpa using heq
    simp only [Bool.or_eq_true] at hmt
    rcases hmt with hm | hm
    · have hmm : 'm' ∈ f := by simpa using hm
      rw [← heq'] at hmm
      have : isKept 'm' = false := hlw 'm' (List.mem_of_mem_drop hmm)
      exact absurd this (by decide)
    · have hmm : 't' ∈ f := by simpa using hm
      rw [← heq'] at hmm
      have : isKept 't' = false := hlw 't' (List.mem_of_mem_drop hmm)
      exact absurd this (by decide)
  rw [if_neg (by rw [hany]; simp)]

theorem syllabifyStr_keptless (cfg : Config) {w : List Char}
    (hw : ∀ c ∈ w, isKept c = false) : syllabifyStr cfg w = [] := by
  have hnorm : normalize w = [] := by
    unfold normalize
    rw [List.filter_eq_nil_iff.mpr (by intro a ha; simp [hw a ha])]
    rfl
  unfold syllabifyStr
  rw [hnorm]
  rfl

/-! The constructor ignores the exception level except through the two
comparisons `exceptions > 0` and `exceptions > 1` (claim C8). -/

theorem latin_level_irrelevant (n m : Int) (ipa h epen tl : Bool) (w : List Char) :
    latin ⟨n, ipa, h, epen, tl⟩ w = latin ⟨m, ipa, h, epen, tl⟩ w := rfl

theorem syllabifyAny_level_irrelevant (n m : Int) (ipa h epen tl : Bool)
    (x : List Char ⊕ List (List Char)) :
    syllabifyAny ⟨n, ipa, h, epen, tl⟩ x = syllabifyAny ⟨m, ipa, h, epen, tl⟩ x := by
  cases x <;> rfl

/-! Lemma for the hiatus-prefix step of `makeExceptions` (claim C5). -/

theorem makeExceptions_hiatus_insert (subst : List Char → List Char) (w : List Char)
    (hpre : (st ("fie")).isPrefixOf w = true ∨ (st ("sua")).isPrefixOf w = true ∨
      (st ("rui")).isPrefixOf w = true) :
    makeExceptions true subst w = subst (w.take 2 ++ '_' :: w.drop 2) := by
  rcases hpre with h | h | h
  · obtain ⟨rest, hw⟩ := List.isPrefixOf_iff_prefix.mp h
    subst hw
    have hst : st ("fie") ++ rest = 'f' :: 'i' :: 'e' :: rest := rfl
    rw [hst]
    simp [makeExceptions, caparros, replaceFirst, List.isPrefixOf, st]
  · obtain ⟨rest, hw⟩ := List.isPrefixOf_iff_prefix.mp h
    subst hw
    have hst : st ("sua") ++ rest = 's' :: 'u' :: 'a' :: rest := rfl
    rw [hst]
    simp [makeExceptions, caparros, replaceFirst, List.isPrefixOf, st]
  · obtain ⟨rest, hw⟩ := List.isPrefixOf_iff_prefix.mp h
    subst hw
    have hst : st ("rui") ++ rest = 'r' :: 'u' :: 'i' :: rest := rfl
    rw [hst]
    simp [makeExceptions, caparros, replaceFirst, List.isPrefixOf, st]

/-! Claim theorems. -/

/-- Claim C1, counterexample: concatenating the syllables does not always
reproduce "the input after exception substitution / epenthesis / Latin
marking and after stripping characters that are not letters, numbers, or
underscore".  For the input "à" at exceptionLevel 0 no substitution or
Latin marking applies and nothing is stripped, so that normalized word is
"à"; but the syllables concatenate to "a", because `syllabify` additionally
rewrites foreign graves, tildes and ligatures through its `foreignLig`
table. -/
theorem claimC1_counterexample :
    (run cfg0 id (st ("à"))).1.flatten = st ("a") ∧
    (st ("à")).filter isKept = st ("à") ∧
    ¬ (st ("a") = st ("à")) := by decide

/-- Claim C1, amended: for every word and configuration, concatenating the
returned syllables reproduces the normalized word, where normalization
consists of the strip of non-letter/digit/underscore characters, the
`foreignLig` mapping (à→a, …, ﬁ→fi), and the removal of sentinel
underscores; on the Latin path the normalized word is the concatenation of
the Latin-marked syllable array itself. -/
theorem claimC1_amended (cfg : Config) (subst : List Char → List Char) (w : List Char) :
    (run cfg subst w).1.flatten = normalizedOf cfg subst w :=
  run_flatten cfg subst w

/-- Claim C2: for every syllable list, the stress index returned by
`stressedSyllable` is at most -1, at least -N when the list has N ≥ 1
syllables, and exactly -1 when there are at most one. -/
theorem claimC2 (sylls : List (List Char)) :
    stressedSyllable sylls ≤ -1 ∧
    (1 ≤ sylls.length → -(sylls.length : Int) ≤ stressedSyllable sylls) ∧
    (sylls.length ≤ 1 → stressedSyllable sylls = -1) :=
  stress_range sylls

/-- Witness for claim C2 at concrete syllable lists. -/
theorem claimC2_witness :
    -(([st ("ca"), st ("sa")] : List (List Char)).length : Int) ≤
        stressedSyllable [st ("ca"), st ("sa")] ∧
    stressedSyllable [st ("sol")] = -1 :=
  ⟨(claimC2 [st ("ca"), st ("sa")]).2.1 (by decide),
   (claimC2 [st ("sol")]).2.2 (by decide)⟩

/-- Claim C3, counterexample: the Latin-inflection fallback is NOT run when
exceptionLevel = 0.  The word "murum" satisfies the fallback's own
conditions (it ends in "um" and carries no accent), and the fallback would
produce the accented syllables ["múr", "um"] with stress -2; but at level 0
the constructor leaves the word untouched and returns stress -1. -/
theorem claimC3_counterexample :
    preprocess cfg0 id (st ("murum")) = Sum.inl (st ("murum")) ∧
    latin cfg0 (st ("murum")) = Sum.inr [st ("múr"), st ("um")] ∧
    (run cfg0 id (st ("murum"))).2 = -1 ∧
    (run cfg1 id (st ("murum"))).2 = -2 := by decide

/-- Claim C3, amended: the Latin-inflection fallback runs after exception
substitution exactly when exceptionLevel > 0; when exceptionLevel ≤ 0
neither the exception pass nor the Latin pass is applied. -/
theorem claimC3_amended (cfg : Config) (subst : List Char → List Char) (w : List Char) :
    (0 < cfg.exceptions →
      preprocess cfg subst w
        = latin cfg (makeExceptions (decide (1 < cfg.exceptions)) subst
            (if cfg.epen then epenthesis w else w))) ∧
    (cfg.exceptions ≤ 0 →
      preprocess cfg subst w = Sum.inl (if cfg.epen then epenthesis w else w)) := by
  constructor
  · intro hpos
    unfold preprocess
    rw [if_pos hpos]
  · intro hneg
    unfold preprocess
    rw [if_neg (by omega)]

/-- Witness for the amended claim C3 at exceptionLevel 1. -/
theorem claimC3_witness :
    preprocess cfg1 id (st ("murum"))
      = latin cfg1 (makeExceptions (decide (1 < cfg1.exceptions)) id
          (if cfg1.epen then epenthesis (st ("murum")) else st ("murum"))) :=
  (claimC3_amended cfg1 id (st ("murum"))).1 (by decide)

/-- Claim C4, counterexample: when the Latin fallback fires on "tataum",
the provisional segmentation is ["ta", "ta", "um"] (more than two
syllables) and its penultimate syllable "ta" has no ligature, only one
distinct vowel letter, and ends in a vowel — so by the claim the
antepenultimate should receive the accent; but the code writes the accent
into the penultimate syllable, returning ["ta", "tá", "um"]. -/
theorem claimC4_counterexample :
    latin cfg1 (st ("tataum")) = Sum.inr [st ("ta"), st ("tá"), st ("um")] ∧
    syllabifyStr cfg1 (st ("tata_um")) = [st ("ta"), st ("ta"), st ("um")] ∧
    longSyl (st ("ta")) = false := by decide

/-- Claim C4, amended: for provisional segmentations of more than two
syllables, the penultimate syllable is accented when it is "long"
(ligature, two or more distinct vowel letters, or not ending in a vowel
letter); otherwise the antepenultimate is accented when it is itself
"long"; otherwise only the letter a of the penultimate syllable is
considered, its first occurrence (if any) becoming á.  The accent is
written on the first vowel found scanning the table a,e,i,o,u in order. -/
theorem claimC4_amended (sylls : List (List Char)) (h : 2 < sylls.length) :
    latinAccent sylls = latinAccentSpec sylls :=
  latinAccent_eq_spec sylls h

/-- Witness for the amended claim C4 at the provisional segmentation of
"tataum". -/
theorem claimC4_witness :
    latinAccent [st ("ta"), st ("ta"), st ("um")]
      = latinAccentSpec [st ("ta"), st ("ta"), st ("um")] :=
  claimC4_amended _ (by decide)

/-- Claim C5, counterexample: in hiatus mode the word "fiesta" becomes
"fi_esta" — the sentinel is inserted after the first TWO letters of the
prefix, not after the first letter (which would give "f_iesta"). -/
theorem claimC5_counterexample :
    makeExceptions true id (st ("fiesta")) = st ("fi_esta") ∧
    ¬ (st ("fi_esta") = st ("f_iesta")) := by decide

/-- Claim C5, amended: for every word beginning with fie, sua or rui
processed in hiatus mode (exceptionLevel 2), a sentinel underscore is
inserted after the first two letters of the prefix, before the exception
table substitution is applied. -/
theorem claimC5_amended (subst : List Char → List Char) (w : List Char)
    (hpre : (st ("fie")).isPrefixOf w = true ∨ (st ("sua")).isPrefixOf w = true ∨
      (st ("rui")).isPrefixOf w = true) :
    makeExceptions true subst w = subst (w.take 2 ++ '_' :: w.drop 2) :=
  makeExceptions_hiatus_insert subst w hpre

/-- Witness for the amended claim C5 at the word "fiesta". -/
theorem claimC5_witness :
    makeExceptions true id (st ("fiesta"))
      = id ((st ("fiesta")).take 2 ++ '_' :: (st ("fiesta")).drop 2) :=
  claimC5_amended id (st ("fiesta")) (Or.inl (by decide))

/-- Claim C6: for every syllable list of at least two syllables none of
which contains an orthographic accent mark, `stressedSyllable` computes the
default cascade: -1 when the last syllable ends in y/Y preceded by a plain
vowel; else -2 when it ends in a plain vowel or y; else -2 when it ends in
n/s (either case) preceded by a plain vowel; else -1. -/
theorem claimC6 (sylls : List (List Char)) (hlen : 2 ≤ sylls.length)
    (hacc : ∀ syl ∈ sylls, ∀ c ∈ syl, hasAccent c = false) :
    stressedSyllable sylls = stressDefaultSpec sylls :=
  stressedSyllable_eq_spec sylls hlen hacc

/-- Witness for claim C6. -/
theorem claimC6_witness :
    stressedSyllable [st ("ca"), st ("sas")] = stressDefaultSpec [st ("ca"), st ("sas")] :=
  claimC6 [st ("ca"), st ("sas")] (by decide) (by decide)

/-- Claim C7: for every input string and every configuration (any runtime
exception level, any flags, any substitution table pass), the constructor
terminates with a normal result: the variant of the pipeline in which every
JS expression that could raise a TypeError returns `none` instead always
returns `some` of the plain result. -/
theorem claimC7 (cfg : Config) (subst : List Char → List Char) (w : List Char) :
    runSafe cfg subst w = some (run cfg subst w) :=
  runSafe_eq cfg subst w

/-- Claim C8, counterexample: constructing with exceptionLevel 7 (outside
the declared 0|1|2 union) does not fail: the word is processed normally,
exactly as at level 2. -/
theorem claimC8_counterexample :
    run ⟨7, false, false, false, false⟩ id (st ("hola")) = ([st ("ho"), st ("la")], -2) ∧
    run ⟨7, false, false, false, false⟩ id (st ("hola")) = run cfg2 id (st ("hola")) := by
  decide

/-- Claim C8, amended: out-of-range exception levels are not rejected at
runtime (the `ExceptionLevel` union type exists only at TypeScript compile
time); any level above 1 behaves exactly like level 2, and any level at
most 0 behaves exactly like level 0. -/
theorem claimC8_amended (n : Int) (ipa h epen tl : Bool)
    (subst : List Char → List Char) (w : List Char) :
    (1 < n → run ⟨n, ipa, h, epen, tl⟩ subst w = run ⟨2, ipa, h, epen, tl⟩ subst w) ∧
    (n ≤ 0 → run ⟨n, ipa, h, epen, tl⟩ subst w = run ⟨0, ipa, h, epen, tl⟩ subst w) := by
  constructor
  · intro hn
    unfold run preprocess
    dsimp only
    rw [if_pos (show (0 : Int) < n by omega), if_pos (show (0 : Int) < 2 by norm_num)]
    rw [decide_eq_true hn, show decide ((1 : Int) < 2) = true by decide]
    rw [latin_level_irrelevant n 2 ipa h epen tl,
      syllabifyAny_level_irrelevant n 2 ipa h epen tl]
  · intro hn
    unfold run preprocess
    dsimp only
    rw [if_neg (show ¬ (0 : Int) < n by omega), if_neg (show ¬ (0 : Int) < 0 by norm_num)]
    rw [syllabifyAny_level_irrelevant n 0 ipa h epen tl]

/-- Witness for the amended claim C8 at level 7. -/
theorem claimC8_witness :
    run ⟨7, false, false, false, false⟩ id (st ("fiesta"))
      = run ⟨2, false, false, false, false⟩ id (st ("fiesta")) :=
  (claimC8_amended 7 false false false false id (st ("fiesta"))).1 (by decide)

/-- Claim C9, counterexample: an input containing no letters does not
always yield the empty syllable sequence: digits survive the stripping
step, so "1" yields the single syllable "1". -/
theorem claimC9_counterexample :
    (st ("1")).all (fun c => !c.isAlpha) = true ∧
    (run cfg0 id (st ("1"))).1 = [st ("1")] ∧
    ¬ ((run cfg0 id (st ("1"))).1 = ([] : List (List Char))) := by decide

/-- Claim C9, amended: for every input none of whose characters is a
letter, digit or underscore, and every configuration whose substitution
pass preserves that property, the result is the empty syllable sequence
with stress -1; this is a normal result, not an error. -/
theorem claimC9_amended (cfg : Config) (subst : List Char → List Char) (w : List Char)
    (hw : ∀ c ∈ w, isKept c = false)
    (hsubst : ∀ s : List Char, (∀ c ∈ s, isKept c = false) →
      ∀ c ∈ subst s, isKept c = false) :
    run cfg subst w = ([], -1) := by
  have hw1 : ∀ c ∈ (if cfg.epen then epenthesis w else w), isKept c = false := by
    by_cases he : cfg.epen
    · rw [if_pos he, epenthesis_keptless hw]; exact hw
    · rw [if_neg he]; exact hw
  unfold run preprocess
  by_cases hexc : 0 < cfg.exceptions
  · rw [if_pos hexc]
    rw [makeExceptions_keptless _ _ hw1]
    have hsw : ∀ c ∈ subst (if cfg.epen then epenthesis w else w), isKept c = false :=
      hsubst _ hw1
    rw [latin_keptless cfg hsw]
    simp only [syllabifyAny]
    rw [syllabifyStr_keptless cfg hsw]
    rfl
  · rw [if_neg hexc]
    simp only [syllabifyAny]
    rw [syllabifyStr_keptless cfg hw1]
    rfl

/-- Witness for the amended claim C9 on a punctuation-only input. -/
theorem claimC9_witness : run cfg0 id (st ("!?")) = ([], -1) :=
  claimC9_amended cfg0 id (st ("!?")) (by decide) (fun s hs => hs)

/-- Claim C10: no syllable returned by the constructor ever contains the
sentinel character underscore, for any word, configuration and substitution
pass. -/
theorem claimC10 (cfg : Config) (subst : List Char → List Char) (w : List Char)
    (syl : List Char) (hmem : syl ∈ (run cfg subst w).1) : '_' ∉ syl :=
  run_no_underscore cfg subst w syl hmem

/-- Witness for claim C10 on an input containing a sentinel. -/
theorem claimC10_witness : '_' ∉ st ("a") :=
  claimC10 cfg0 id (st ("a_e")) (st ("a")) (by decide)

end Silabeador
